import Mathlib

/-!
Verification development for the git-author-rewrite tool.

The program is embedded shallowly: strings are lists of characters,
the file system and the results of spawned git subprocesses are oracles
passed explicitly, and each Rust function of interest becomes a Lean
definition of the same name.
-/

namespace GitAuthorRewrite

/-- Unicode White_Space test matching Rust's char::is_whitespace, used by
str::trim_start and str::trim in the source. -/
def isRustWhitespace (c : Char) : Bool :=
  let n := c.toNat
  n == 0x09 || n == 0x0A || n == 0x0B || n == 0x0C || n == 0x0D || n == 0x20 ||
    n == 0x85 || n == 0xA0 || n == 0x1680 || (Nat.ble 0x2000 n && Nat.ble n 0x200A) ||
    n == 0x2028 || n == 0x2029 || n == 0x202F || n == 0x205F || n == 0x3000

/-- Left trim, as Rust str::trim_start. -/
def trimStart (l : List Char) : List Char := l.dropWhile isRustWhitespace

/-- Trim of both ends, as Rust str::trim. -/
def trimChars (l : List Char) : List Char :=
  ((l.dropWhile isRustWhitespace).reverse.dropWhile isRustWhitespace).reverse

/-- Boolean test whether a list starts with a given character,
as Rust str::starts_with applied to a char. -/
def startsWithChar (c : Char) (l : List Char) : Bool :=
  match l with
  | [] => false
  | a :: _ => a == c

/-- Embedding of transform_line from src/sequence_editor.rs: comment lines
unchanged, leading `pick ` replaced by `edit ` keeping the indent, all
other lines unchanged. -/
def transform_line (line : List Char) : List Char :=
  let trimmed := trimStart line
  if startsWithChar '#' trimmed then line
  else if List.isPrefixOf "pick ".toList trimmed then
    line.take (line.length - trimmed.length) ++ "edit ".toList ++ trimmed.drop 5
  else line

/-- Helper for splitInclNl: push a character onto the front of the first
segment, creating a segment when there is none. -/
def consHead (c : Char) : List (List Char) → List (List Char)
  | [] => [[c]]
  | l :: ls => (c :: l) :: ls

/-- Split inclusive on newline, as Rust str::split_inclusive used inside
str::lines: every segment keeps its terminating newline, and no empty
final segment is produced. -/
def splitInclNl : List Char → List (List Char)
  | [] => []
  | c :: rest =>
    if c = '\n' then [c] :: splitInclNl rest
    else consHead c (splitInclNl rest)

/-- Per-segment cleanup of Rust's Lines iterator: strip one trailing
newline and, when one was stripped, one trailing carriage return. -/
def rustLineMap (l : List Char) : List Char :=
  if l.getLast? = some '\n' then
    if l.dropLast.getLast? = some '\r' then l.dropLast.dropLast else l.dropLast
  else l

/-- Embedding of Rust str::lines, as used by rewrite in src/sequence_editor.rs. -/
def linesOf (s : List Char) : List (List Char) := (splitInclNl s).map rustLineMap

/-- Join with a newline separator, as the join of a vector of strings on
a newline in rewrite. -/
def joinNl : List (List Char) → List Char
  | [] => []
  | [l] => l
  | l :: l' :: ls => l ++ '\n' :: joinNl (l' :: ls)

/-- Pure content transformation performed by rewrite from
src/sequence_editor.rs: lines mapped through transform_line, joined on
newline, with one newline appended at the end. -/
def rewriteContent (body : List Char) : List Char :=
  joinNl ((linesOf body).map transform_line) ++ ['\n']

/-- Embedding of rewrite from src/sequence_editor.rs over a file-system
map from path to optional content: read, transform, write back in place. -/
def rewrite_fs (fs : String → Option (List Char)) (path : String) :
    Except String (String → Option (List Char)) :=
  match fs path with
  | none => Except.error "read failed"
  | some body => Except.ok (fun q => if q = path then some (rewriteContent body) else fs q)

/-- Embedding of run from src/sequence_editor.rs: missing path is an
immediate error, otherwise delegate to rewrite on the given path. -/
def sequence_editor_run (todoPath : Option String) (fs : String → Option (List Char)) :
    Except String (String → Option (List Char)) :=
  match todoPath with
  | some p => rewrite_fs fs p
  | none => Except.error "missing todo file path"

/-- Embedding of build_sequence_editor_env from src/git.rs. -/
def build_sequence_editor_env (exePath : List Char) : List Char :=
  let quoted := if exePath.contains ' ' then '"' :: (exePath ++ ['"']) else exePath
  quoted ++ " --sequence-editor".toList

/-- Outcome of a completed subprocess: exit success plus captured stdout
and stderr, as std::process::Output is consumed by run_output. -/
structure CmdResult where
  success : Bool
  stdout : List Char
  stderr : List Char

/-- Embedding of run_output from src/git.rs; the argument is the spawn
result of the subprocess (error when the process could not start). -/
def run_output (res : Except (List Char) CmdResult) : Except (List Char) (List Char) :=
  match res with
  | Except.ok out =>
      if out.success then Except.ok (trimChars out.stdout)
      else Except.error (trimChars out.stderr)
  | Except.error e => Except.error e

/-- Embedding of config_get from src/git.rs, over the oracle result of
the `git config --get` subprocess: any failure becomes an empty string. -/
def config_get (res : Except (List Char) CmdResult) : Except (List Char) (List Char) :=
  match run_output res with
  | Except.ok s => Except.ok s
  | Except.error _ => Except.ok []

/-- Minimal file-system oracle: which directories exist; paths are lists
of components. -/
structure FileSystem where
  dirExists : List String → Bool

/-- Embedding of rebase_in_progress from src/git.rs, with its nested
conditional structure kept. -/
def rebase_in_progress (fs : FileSystem) (gitDir : List String) : Bool :=
  let merge := gitDir ++ ["rebase-merge"]
  let applyDir := gitDir ++ ["rebase-apply"]
  if fs.dirExists merge then true
  else if fs.dirExists applyDir then true else false

/-- Embedding of should_exit_no_change from src/cli.rs. -/
def should_exit_no_change (name email defaultName defaultEmail : List Char) : Bool :=
  (trimChars name == trimChars defaultName) && (trimChars email == trimChars defaultEmail)

/-- Oracle for the rebase loop: iteration-indexed results of the
rebase-in-progress check and of the amend and continue subprocesses. -/
structure RebaseOracle where
  inProgress : Nat → Bool
  amendOk : Nat → Bool
  continueOk : Nat → Bool

/-- Git commands the rebase loop can issue. -/
inductive GitCmd where
  | amendCmd : String → GitCmd
  | continueCmd : GitCmd
deriving DecidableEq

/-- Terminal outcome of the rebase loop (fuelExhausted marks a run whose
bound on iterations was too small to finish). -/
inductive LoopOutcome where
  | success
  | amendFailed
  | continueFailed
  | fuelExhausted
deriving DecidableEq

/-- Embedding of run_rebase_loop from src/cli.rs over a RebaseOracle:
check progress, stop with success when false; otherwise amend (abort on
failure), continue (abort on failure), repeat. Returns the outcome and
the list of commands issued, fuel-bounded. -/
def run_rebase_loop (o : RebaseOracle) (author : String) :
    Nat → Nat → LoopOutcome × List GitCmd
  | 0, _ => (LoopOutcome.fuelExhausted, [])
  | fuel + 1, i =>
    if o.inProgress i then
      if o.amendOk i then
        if o.continueOk i then
          ((run_rebase_loop o author fuel (i + 1)).1,
            GitCmd.amendCmd author :: GitCmd.continueCmd ::
              (run_rebase_loop o author fuel (i + 1)).2)
        else (LoopOutcome.continueFailed, [GitCmd.amendCmd author, GitCmd.continueCmd])
      else (LoopOutcome.amendFailed, [GitCmd.amendCmd author])
    else (LoopOutcome.success, [])

/-- Shape of a completed loop run: either it ends at a false progress
check with nothing issued, or the very first failing amend or continue
is the last command issued, after some number of full successful
amend-continue cycles all carrying the same author. -/
inductive LoopTrace (author : String) : LoopOutcome → List GitCmd → Prop
  | done : LoopTrace author LoopOutcome.success []
  | amendAbort : LoopTrace author LoopOutcome.amendFailed [GitCmd.amendCmd author]
  | continueAbort :
      LoopTrace author LoopOutcome.continueFailed
        [GitCmd.amendCmd author, GitCmd.continueCmd]
  | cycle (r : LoopOutcome) (tr : List GitCmd) :
      LoopTrace author r tr →
      LoopTrace author r (GitCmd.amendCmd author :: GitCmd.continueCmd :: tr)

/-! Helper lemmas about the todo-line transformer. -/

lemma take_length_sub_dropWhile (p : Char → Bool) (l : List Char) :
    l.take (l.length - (l.dropWhile p).length) = l.takeWhile p := by
  set tw := l.takeWhile p with htw
  set dw := l.dropWhile p with hdw
  have h : tw ++ dw = l := List.takeWhile_append_dropWhile p l
  rw [← h, List.length_append, Nat.add_sub_cancel, List.take_left]

lemma transform_line_of_comment {l : List Char}
    (h : startsWithChar '#' (trimStart l) = true) : transform_line l = l := by
  simp [transform_line, h]

lemma transform_line_of_other {l : List Char}
    (hc : startsWithChar '#' (trimStart l) = false)
    (hp : List.isPrefixOf "pick ".toList (trimStart l) = false) :
    transform_line l = l := by
  simp only [transform_line]
  rw [if_neg (by rw [hc]; simp), if_neg (by rw [hp]; simp)]

lemma transform_line_of_pick {l : List Char}
    (hc : startsWithChar '#' (trimStart l) = false)
    (hp : List.isPrefixOf "pick ".toList (trimStart l) = true) :
    transform_line l =
      l.takeWhile isRustWhitespace ++ "edit ".toList ++ (trimStart l).drop 5 := by
  simp only [transform_line, hc, hp, Bool.false_eq_true, if_false, if_true]
  rw [show trimStart l = l.dropWhile isRustWhitespace from rfl,
    take_length_sub_dropWhile]

lemma trimStart_eq_pick_append {l : List Char}
    (hp : List.isPrefixOf "pick ".toList (trimStart l) = true) :
    ∃ rest, trimStart l = 'p' :: 'i' :: 'c' :: 'k' :: ' ' :: rest := by
  obtain ⟨rest, hrest⟩ := List.isPrefixOf_iff_prefix.mp hp
  exact ⟨rest, by rw [← hrest]; rfl⟩

/-- C5: rebase-in-progress detection is true exactly when at least one of
the two sentinel directories `rebase-merge` and `rebase-apply` exists
directly under the given git directory, and false when neither exists. -/
theorem rebase_in_progress_spec (fs : FileSystem) (gitDir : List String) :
    rebase_in_progress fs gitDir =
      (fs.dirExists (gitDir ++ ["rebase-merge"]) ||
        fs.dirExists (gitDir ++ ["rebase-apply"])) := by
  unfold rebase_in_progress
  by_cases h1 : fs.dirExists (gitDir ++ ["rebase-merge"]) = true <;>
    by_cases h2 : fs.dirExists (gitDir ++ ["rebase-apply"]) = true <;>
      simp [h1, h2]

/-- C6: the sequence-editor environment value is the double-quoted path
followed by a space and the flag exactly when the path contains a space,
and the bare path followed by a space and the flag otherwise. -/
theorem build_sequence_editor_env_spec (p : List Char) :
    (build_sequence_editor_env p =
        '"' :: (p ++ ['"']) ++ " --sequence-editor".toList ↔
      p.contains ' ' = true) ∧
    (build_sequence_editor_env p = p ++ " --sequence-editor".toList ↔
      p.contains ' ' = false) := by
  have hq : p.contains ' ' = true →
      build_sequence_editor_env p =
        '"' :: (p ++ ['"']) ++ " --sequence-editor".toList := by
    intro hc
    simp only [build_sequence_editor_env]
    rw [if_pos hc]
  have hn : p.contains ' ' = false →
      build_sequence_editor_env p = p ++ " --sequence-editor".toList := by
    intro hc
    simp only [build_sequence_editor_env]
    rw [if_neg (by rw [hc]; simp)]
  have hlen2 : ∀ q r : List Char, ('"' :: (q ++ ['"']) ++ r) ≠ q ++ r := by
    intro q r h
    have hl := congrArg List.length h
    simp only [List.length_cons, List.length_append] at hl
    omega
  by_cases hc : p.contains ' ' = true
  · refine ⟨⟨fun _ => hc, fun _ => hq hc⟩, ?_, ?_⟩
    · intro h
      rw [hq hc] at h
      exact absurd h (hlen2 p _)
    · intro h
      rw [hc] at h
      cases h
  · have hc' : p.contains ' ' = false := by
      cases hcc : p.contains ' ' with
      | true => exact absurd hcc hc
      | false => rfl
    refine ⟨⟨?_, ?_⟩, fun _ => hc', fun _ => hn hc'⟩
    · intro h
      rw [hn hc'] at h
      exact absurd h.symm (hlen2 p _)
    · intro h
      rw [hc'] at h
      cases h

/-- Witness for C6 at a path with a space and a path without one. -/
theorem build_sequence_editor_env_spec_witness :
    build_sequence_editor_env "/a b/app".toList =
      '"' :: ("/a b/app".toList ++ ['"']) ++ " --sequence-editor".toList ∧
    build_sequence_editor_env "/usr/bin/app".toList =
      "/usr/bin/app".toList ++ " --sequence-editor".toList :=
  ⟨(build_sequence_editor_env_spec _).1.mpr (by decide),
    (build_sequence_editor_env_spec _).2.mpr (by decide)⟩

/-- C7: should_exit_no_change is true exactly when both the name and the
email agree with their defaults after trimming surrounding whitespace,
and the two concrete scenarios from the spec hold. -/
theorem should_exit_no_change_spec (name email dn de : List Char) :
    (should_exit_no_change name email dn de = true ↔
      (trimChars name = trimChars dn ∧ trimChars email = trimChars de)) ∧
    should_exit_no_change "Alice ".toList "alice@x.com ".toList
      "Alice".toList "alice@x.com".toList = true ∧
    should_exit_no_change "Alice".toList "alice@x.com".toList
      "Bob".toList "alice@x.com".toList = false := by
  refine ⟨?_, by decide, by decide⟩
  simp [should_exit_no_change]

/-- Witness for C7 at concrete inputs differing only in whitespace. -/
theorem should_exit_no_change_spec_witness :
    should_exit_no_change " A".toList "e@x ".toList "A ".toList " e@x".toList = true :=
  (should_exit_no_change_spec _ _ _ _).1.mpr ⟨by decide, by decide⟩

/-- C8: sequence-editor mode with no path argument fails immediately with
the missing-path error, and with a path it delegates directly to the
todo-file transformer on that path. -/
theorem sequence_editor_run_spec (fs : String → Option (List Char)) (p : String) :
    sequence_editor_run none fs = Except.error "missing todo file path" ∧
    sequence_editor_run (some p) fs = rewrite_fs fs p :=
  ⟨rfl, rfl⟩

/-- C9: config_get never returns an error: any failure of the underlying
invocation yields the empty string, and a successful invocation yields
the trimmed captured output. -/
theorem config_get_spec (res : Except (List Char) CmdResult) :
    (∀ e, config_get res ≠ Except.error e) ∧
    (∀ e, run_output res = Except.error e → config_get res = Except.ok []) ∧
    (∀ out, res = Except.ok out → out.success = true →
      config_get res = Except.ok (trimChars out.stdout)) := by
  refine ⟨?_, ?_, ?_⟩
  · intro e h
    unfold config_get at h
    cases hro : run_output res with
    | ok s => rw [hro] at h; simp at h
    | error e' => rw [hro] at h; simp at h
  · intro e h
    unfold config_get
    rw [h]
  · intro out hres hsucc
    subst hres
    unfold config_get run_output
    simp [hsucc]

/-- Witness for C9 at a concrete failed invocation. -/
theorem config_get_spec_witness :
    config_get (Except.error "fatal: not a git repository".toList) = Except.ok [] :=
  (config_get_spec _).2.1 "fatal: not a git repository".toList (by rfl)

/-- C2: the single-line todo transform leaves comment lines unchanged,
rewrites a line whose left-trim starts with `pick ` to its original
leading whitespace, then `edit`, then every character that followed
`pick`, and leaves every other line unchanged; the three concrete
scenarios from the spec hold. -/
theorem transform_line_spec (line : List Char) :
    (startsWithChar '#' (trimStart line) = true → transform_line line = line) ∧
    (startsWithChar '#' (trimStart line) = false →
      List.isPrefixOf "pick ".toList (trimStart line) = true →
      transform_line line =
        line.takeWhile isRustWhitespace ++ "edit".toList ++ (trimStart line).drop 4) ∧
    (startsWithChar '#' (trimStart line) = false →
      List.isPrefixOf "pick ".toList (trimStart line) = false →
      transform_line line = line) ∧
    transform_line "pick abc123 msg".toList = "edit abc123 msg".toList ∧
    transform_line "# pick shouldnotchange".toList = "# pick shouldnotchange".toList ∧
    transform_line "  pick def456 msg2".toList = "  edit def456 msg2".toList := by
  refine ⟨fun h => transform_line_of_comment h, ?_,
    fun hc hp => transform_line_of_other hc hp, by decide, by decide, by decide⟩
  intro hc hp
  rw [transform_line_of_pick hc hp]
  obtain ⟨rest, hrest⟩ := trimStart_eq_pick_append hp
  rw [hrest]
  have hd5 : ('p' :: 'i' :: 'c' :: 'k' :: ' ' :: rest).drop 5 = rest := rfl
  have hd4 : ('p' :: 'i' :: 'c' :: 'k' :: ' ' :: rest).drop 4 = ' ' :: rest := rfl
  have he : "edit ".toList = ['e', 'd', 'i', 't', ' '] := rfl
  have he' : "edit".toList = ['e', 'd', 'i', 't'] := rfl
  rw [hd5, hd4, he, he']
  simp

/-- Witness for C2 at an indented pick line. -/
theorem transform_line_spec_witness :
    transform_line "  pick def456 msg2".toList =
      ("  pick def456 msg2".toList).takeWhile isRustWhitespace ++
        "edit".toList ++ (trimStart "  pick def456 msg2".toList).drop 4 :=
  (transform_line_spec _).2.1 (by decide) (by decide)

lemma transform_line_of_exec {l : List Char}
    (h : List.isPrefixOf "exec".toList (trimStart l) = true) :
    transform_line l = l := by
  obtain ⟨t, ht⟩ := List.isPrefixOf_iff_prefix.mp h
  have he : trimStart l = 'e' :: 'x' :: 'e' :: 'c' :: t := by rw [← ht]; rfl
  apply transform_line_of_other
  · rw [he]; rfl
  · rw [he]; rfl

lemma map_transform_eq_self {ls : List (List Char)}
    (h : ∀ l ∈ ls, transform_line l = l) : ls.map transform_line = ls := by
  induction ls with
  | nil => rfl
  | cons a t ih =>
    simp only [List.map_cons]
    rw [h a (by simp), ih (fun l hl => h l (by simp [hl]))]

/-- C3: the whole-file transform equals the per-line transform mapped
over the lines of the input, rejoined with single newlines and exactly
one trailing newline; empty input yields exactly the one-character
newline string; a file of only comment and exec lines is unchanged apart
from that trailing-newline normalization. -/
theorem rewrite_content_spec (body : List Char) :
    rewriteContent body = joinNl ((linesOf body).map transform_line) ++ ['\n'] ∧
    rewriteContent [] = ['\n'] ∧
    ((∀ l ∈ linesOf body, startsWithChar '#' (trimStart l) = true ∨
        List.isPrefixOf "exec".toList (trimStart l) = true) →
      rewriteContent body = joinNl (linesOf body) ++ ['\n']) := by
  refine ⟨rfl, rfl, ?_⟩
  intro h
  unfold rewriteContent
  rw [map_transform_eq_self]
  intro l hl
  rcases h l hl with hcom | hex
  · exact transform_line_of_comment hcom
  · exact transform_line_of_exec hex

/-- Witness for C3 at a concrete comment-and-exec-only file. -/
theorem rewrite_content_spec_witness :
    rewriteContent "# note\nexec true\n".toList =
      joinNl (linesOf "# note\nexec true\n".toList) ++ ['\n'] :=
  (rewrite_content_spec _).2.2 (by decide)

/-! The rebase orchestrator loop. -/

lemma run_rebase_loop_trace_aux (o : RebaseOracle) (a : String) :
    ∀ fuel i, (run_rebase_loop o a fuel i).1 ≠ LoopOutcome.fuelExhausted →
      LoopTrace a (run_rebase_loop o a fuel i).1 (run_rebase_loop o a fuel i).2 := by
  intro fuel
  induction fuel with
  | zero =>
    intro i h
    exact absurd rfl h
  | succ n ih =>
    intro i h
    by_cases hp : o.inProgress i = true
    · by_cases ha : o.amendOk i = true
      · by_cases hcont : o.continueOk i = true
        · have hunf : run_rebase_loop o a (n + 1) i =
              ((run_rebase_loop o a n (i + 1)).1,
                GitCmd.amendCmd a :: GitCmd.continueCmd ::
                  (run_rebase_loop o a n (i + 1)).2) := by
            simp only [run_rebase_loop]
            rw [if_pos hp, if_pos ha, if_pos hcont]
          rw [hunf] at h ⊢
          exact LoopTrace.cycle _ _ (ih (i + 1) h)
        · have hunf : run_rebase_loop o a (n + 1) i =
              (LoopOutcome.continueFailed,
                [GitCmd.amendCmd a, GitCmd.continueCmd]) := by
            simp only [run_rebase_loop]
            rw [if_pos hp, if_pos ha, if_neg hcont]
          rw [hunf]
          exact LoopTrace.continueAbort
      · have hunf : run_rebase_loop o a (n + 1) i =
            (LoopOutcome.amendFailed, [GitCmd.amendCmd a]) := by
          simp only [run_rebase_loop]
          rw [if_pos hp, if_neg ha]
        rw [hunf]
        exact LoopTrace.amendAbort
    · have hunf : run_rebase_loop o a (n + 1) i = (LoopOutcome.success, []) := by
        simp only [run_rebase_loop]
        rw [if_neg hp]
      rw [hunf]
      exact LoopTrace.done

/-- C1: every completed run of the rebase loop has the contractual
shape: a false progress check terminates it successfully with nothing
further issued, the first failing amend or continue is the very last
command of the run, and the first iteration checks progress before
issuing anything. -/
theorem run_rebase_loop_contract (o : RebaseOracle) (a : String) (fuel i : Nat) :
    ((run_rebase_loop o a fuel i).1 ≠ LoopOutcome.fuelExhausted →
      LoopTrace a (run_rebase_loop o a fuel i).1 (run_rebase_loop o a fuel i).2) ∧
    (o.inProgress i = false →
      run_rebase_loop o a (fuel + 1) i = (LoopOutcome.success, [])) ∧
    (o.inProgress i = true → o.amendOk i = false →
      run_rebase_loop o a (fuel + 1) i =
        (LoopOutcome.amendFailed, [GitCmd.amendCmd a])) ∧
    (o.inProgress i = true → o.amendOk i = true → o.continueOk i = false →
      run_rebase_loop o a (fuel + 1) i =
        (LoopOutcome.continueFailed, [GitCmd.amendCmd a, GitCmd.continueCmd])) := by
  refine ⟨run_rebase_loop_trace_aux o a fuel i, ?_, ?_, ?_⟩
  · intro hp
    simp only [run_rebase_loop]
    rw [if_neg (by rw [hp]; simp)]
  · intro hp ha
    simp only [run_rebase_loop]
    rw [if_pos hp, if_neg (by rw [ha]; simp)]
  · intro hp ha hcont
    simp only [run_rebase_loop]
    rw [if_pos hp, if_pos ha, if_neg (by rw [hcont]; simp)]

/-- Concrete oracle for the loop witnesses: the rebase stops twice, and
every amend and continue succeeds. -/
def oracleW : RebaseOracle :=
  ⟨fun i => decide (i < 2), fun _ => true, fun _ => true⟩

/-- Witness for C1 at a concrete two-stop oracle with enough fuel. -/
theorem run_rebase_loop_contract_witness :
    (run_rebase_loop oracleW "Ann <a@b.c>" 3 0).1 ≠ LoopOutcome.fuelExhausted ∧
    LoopTrace "Ann <a@b.c>" (run_rebase_loop oracleW "Ann <a@b.c>" 3 0).1
      (run_rebase_loop oracleW "Ann <a@b.c>" 3 0).2 :=
  ⟨by decide, (run_rebase_loop_contract oracleW "Ann <a@b.c>" 3 0).1 (by decide)⟩

/-- C4: every amend command issued during a run of the rebase loop
carries exactly the author string the loop was started with. -/
theorem run_rebase_loop_author_const (o : RebaseOracle) (a : String) :
    ∀ fuel i a', GitCmd.amendCmd a' ∈ (run_rebase_loop o a fuel i).2 → a' = a := by
  intro fuel
  induction fuel with
  | zero =>
    intro i a' h
    simp [run_rebase_loop] at h
  | succ n ih =>
    intro i a' h
    by_cases hp : o.inProgress i = true
    · by_cases ha : o.amendOk i = true
      · by_cases hcont : o.continueOk i = true
        · have hunf : run_rebase_loop o a (n + 1) i =
              ((run_rebase_loop o a n (i + 1)).1,
                GitCmd.amendCmd a :: GitCmd.continueCmd ::
                  (run_rebase_loop o a n (i + 1)).2) := by
            simp only [run_rebase_loop]
            rw [if_pos hp, if_pos ha, if_pos hcont]
          rw [hunf] at h
          rcases List.mem_cons.mp h with h1 | h2
          · exact GitCmd.amendCmd.inj h1
          · rcases List.mem_cons.mp h2 with h3 | h4
            · exact GitCmd.noConfusion h3
            · exact ih (i + 1) a' h4
        · have hunf : run_rebase_loop o a (n + 1) i =
              (LoopOutcome.continueFailed,
                [GitCmd.amendCmd a, GitCmd.continueCmd]) := by
            simp only [run_rebase_loop]
            rw [if_pos hp, if_pos ha, if_neg hcont]
          rw [hunf] at h
          rcases List.mem_cons.mp h with h1 | h2
          · exact GitCmd.amendCmd.inj h1
          · rcases List.mem_cons.mp h2 with h3 | h4
            · exact GitCmd.noConfusion h3
            · exact absurd h4 (List.not_mem_nil _)
      · have hunf : run_rebase_loop o a (n + 1) i =
            (LoopOutcome.amendFailed, [GitCmd.amendCmd a]) := by
          simp only [run_rebase_loop]
          rw [if_pos hp, if_neg ha]
        rw [hunf] at h
        rcases List.mem_cons.mp h with h1 | h2
        · exact GitCmd.amendCmd.inj h1
        · exact absurd h2 (List.not_mem_nil _)
    · have hunf : run_rebase_loop o a (n + 1) i = (LoopOutcome.success, []) := by
        simp only [run_rebase_loop]
        rw [if_neg hp]
      rw [hunf] at h
      exact absurd h (List.not_mem_nil _)

/-- Witness for C4 at the concrete two-stop oracle. -/
theorem run_rebase_loop_author_const_witness :
    GitCmd.amendCmd "Ann <a@b.c>" ∈ (run_rebase_loop oracleW "Ann <a@b.c>" 3 0).2 ∧
    "Ann <a@b.c>" = "Ann <a@b.c>" :=
  ⟨by decide,
    run_rebase_loop_author_const oracleW "Ann <a@b.c>" 3 0 "Ann <a@b.c>" (by decide)⟩

/-! Idempotence of the todo transform: line level always, file level only
in the absence of carriage returns. -/

lemma consHead_ne_nil (c : Char) (ls : List (List Char)) : consHead c ls ≠ [] := by
  cases ls <;> simp [consHead]

lemma splitInclNl_eq_nil_iff {s : List Char} : splitInclNl s = [] ↔ s = [] := by
  constructor
  · intro h
    cases s with
    | nil => rfl
    | cons c rest =>
      simp only [splitInclNl] at h
      by_cases hc : c = '\n'
      · rw [if_pos hc] at h
        cases h
      · rw [if_neg hc] at h
        exact absurd h (consHead_ne_nil c _)
  · intro h
    subst h
    rfl

lemma splitInclNl_mem_chars :
    ∀ (s seg : List Char), seg ∈ splitInclNl s → ∀ c ∈ seg, c ∈ s := by
  intro s
  induction s with
  | nil =>
    intro seg h
    simp [splitInclNl] at h
  | cons c₀ rest ih =>
    intro seg h c hc
    simp only [splitInclNl] at h
    by_cases h0 : c₀ = '\n'
    · rw [if_pos h0] at h
      rcases List.mem_cons.mp h with h1 | h2
      · subst h1
        simp only [List.mem_singleton] at hc
        subst hc
        exact List.mem_cons_self _ _
      · exact List.mem_cons_of_mem _ (ih seg h2 c hc)
    · rw [if_neg h0] at h
      cases hsp : splitInclNl rest with
      | nil =>
        rw [hsp] at h
        simp only [consHead, List.mem_singleton] at h
        subst h
        simp only [List.mem_singleton] at hc
        subst hc
        exact List.mem_cons_self _ _
      | cons l ls =>
        rw [hsp] at h
        simp only [consHead] at h
        rcases List.mem_cons.mp h with h1 | h2
        · subst h1
          rcases List.mem_cons.mp hc with h3 | h4
          · subst h3
            exact List.mem_cons_self _ _
          · exact List.mem_cons_of_mem _
              (ih l (by rw [hsp]; exact List.mem_cons_self l ls) c h4)
        · exact List.mem_cons_of_mem _
            (ih seg (by rw [hsp]; exact List.mem_cons_of_mem _ h2) c hc)

lemma splitInclNl_ne_nil_mem :
    ∀ (s seg : List Char), seg ∈ splitInclNl s → seg ≠ [] := by
  intro s
  induction s with
  | nil =>
    intro seg h
    simp [splitInclNl] at h
  | cons c₀ rest ih =>
    intro seg h
    simp only [splitInclNl] at h
    by_cases h0 : c₀ = '\n'
    · rw [if_pos h0] at h
      rcases List.mem_cons.mp h with h1 | h2
      · subst h1; simp
      · exact ih seg h2
    · rw [if_neg h0] at h
      cases hsp : splitInclNl rest with
      | nil =>
        rw [hsp] at h
        simp only [consHead, List.mem_singleton] at h
        subst h
        simp
      | cons l ls =>
        rw [hsp] at h
        simp only [consHead] at h
        rcases List.mem_cons.mp h with h1 | h2
        · subst h1; simp
        · exact ih seg (by rw [hsp]; exact List.mem_cons_of_mem _ h2)

lemma splitInclNl_dropLast_no_nl :
    ∀ (s seg : List Char), seg ∈ splitInclNl s → ('\n') ∉ seg.dropLast := by
  intro s
  induction s with
  | nil =>
    intro seg h
    simp [splitInclNl] at h
  | cons c₀ rest ih =>
    intro seg h
    simp only [splitInclNl] at h
    by_cases h0 : c₀ = '\n'
    · rw [if_pos h0] at h
      rcases List.mem_cons.mp h with h1 | h2
      · subst h1; simp
      · exact ih seg h2
    · rw [if_neg h0] at h
      cases hsp : splitInclNl rest with
      | nil =>
        rw [hsp] at h
        simp only [consHead, List.mem_singleton] at h
        subst h
        simp
      | cons l ls =>
        rw [hsp] at h
        simp only [consHead] at h
        rcases List.mem_cons.mp h with h1 | h2
        · subst h1
          have hl : l ≠ [] :=
            splitInclNl_ne_nil_mem rest l (by rw [hsp]; exact List.mem_cons_self l ls)
          cases l with
          | nil => exact absurd rfl hl
          | cons d ds =>
            rw [List.dropLast_cons₂]
            intro hmem
            rcases List.mem_cons.mp hmem with h3 | h4
            · exact h0 h3.symm
            · exact ih (d :: ds) (by rw [hsp]; exact List.mem_cons_self _ ls) h4
        · exact ih seg (by rw [hsp]; exact List.mem_cons_of_mem _ h2)

lemma mem_rustLineMap_sub {seg : List Char} {c : Char}
    (h : c ∈ rustLineMap seg) : c ∈ seg := by
  unfold rustLineMap at h
  by_cases h1 : seg.getLast? = some '\n'
  · rw [if_pos h1] at h
    by_cases h2 : seg.dropLast.getLast? = some '\r'
    · rw [if_pos h2] at h
      exact List.Sublist.mem (List.Sublist.mem h (List.dropLast_sublist _))
        (List.dropLast_sublist _)
    · rw [if_neg h2] at h
      exact List.Sublist.mem h (List.dropLast_sublist _)
  · rw [if_neg h1] at h
    exact h

lemma rustLineMap_no_nl {seg : List Char}
    (hint : ('\n') ∉ seg.dropLast) : ('\n') ∉ rustLineMap seg := by
  unfold rustLineMap
  by_cases h1 : seg.getLast? = some '\n'
  · rw [if_pos h1]
    by_cases h2 : seg.dropLast.getLast? = some '\r'
    · rw [if_pos h2]
      intro hmem
      exact hint (List.Sublist.mem hmem (List.dropLast_sublist _))
    · rw [if_neg h2]
      exact hint
  · rw [if_neg h1]
    intro hmem
    have hne : seg ≠ [] := by
      intro hn
      subst hn
      simp at hmem
    have hdecomp : seg.dropLast ++ [seg.getLast hne] = seg :=
      List.dropLast_append_getLast hne
    rw [← hdecomp] at hmem
    rcases List.mem_append.mp hmem with h3 | h4
    · exact hint h3
    · have hlast : seg.getLast hne = '\n' := (List.mem_singleton.mp h4).symm
      exact h1 (by rw [List.getLast?_eq_getLast seg hne, hlast])

lemma getLast?_ne_of_not_mem {l : List Char} {c : Char} (h : c ∉ l) :
    l.getLast? ≠ some c := by
  intro hl
  obtain ⟨hne, hgl⟩ := List.mem_getLast?_eq_getLast (Option.mem_def.mpr hl)
  have hm := List.getLast_mem hne
  rw [← hgl] at hm
  exact h hm

lemma rustLineMap_append_nl {l : List Char}
    (hr : l.getLast? ≠ some '\r') : rustLineMap (l ++ ['\n']) = l := by
  unfold rustLineMap
  rw [if_pos (List.getLast?_concat l)]
  rw [List.dropLast_concat, if_neg hr]

lemma splitInclNl_append_nl :
    ∀ (l t : List Char), ('\n') ∉ l →
      splitInclNl (l ++ '\n' :: t) = (l ++ ['\n']) :: splitInclNl t := by
  intro l
  induction l with
  | nil =>
    intro t _
    simp [splitInclNl]
  | cons c cs ih =>
    intro t hl
    have hc : c ≠ '\n' := by
      intro h
      exact hl (by rw [← h]; exact List.mem_cons_self c cs)
    have hcs : ('\n') ∉ cs := fun h => hl (List.mem_cons_of_mem _ h)
    simp only [List.cons_append, splitInclNl, List.append_eq]
    rw [if_neg hc, ih t hcs]
    simp [consHead]

lemma linesOf_joinNl :
    ∀ (ls : List (List Char)) (l : List Char),
      (∀ m ∈ l :: ls, ('\n') ∉ m ∧ ('\r') ∉ m) →
      linesOf (joinNl (l :: ls) ++ ['\n']) = l :: ls := by
  intro ls
  induction ls with
  | nil =>
    intro l h
    have h1 := h l (List.mem_cons_self _ _)
    unfold linesOf
    rw [show joinNl [l] = l from rfl]
    rw [show (l ++ ['\n'] : List Char) = l ++ '\n' :: ([] : List Char) from rfl]
    rw [splitInclNl_append_nl l [] h1.1]
    simp only [splitInclNl, List.map_cons, List.map_nil]
    rw [rustLineMap_append_nl (getLast?_ne_of_not_mem h1.2)]
  | cons l₂ ls₂ ih =>
    intro l h
    have h1 := h l (List.mem_cons_self _ _)
    have h2 : ∀ m ∈ l₂ :: ls₂, ('\n') ∉ m ∧ ('\r') ∉ m :=
      fun m hm => h m (List.mem_cons_of_mem _ hm)
    have hjoin : joinNl (l :: l₂ :: ls₂) = l ++ '\n' :: joinNl (l₂ :: ls₂) := rfl
    rw [hjoin]
    unfold linesOf
    rw [List.append_assoc, List.cons_append]
    rw [splitInclNl_append_nl l _ h1.1]
    simp only [List.map_cons]
    rw [rustLineMap_append_nl (getLast?_ne_of_not_mem h1.2)]
    have hrec := ih l₂ h2
    unfold linesOf at hrec
    rw [hrec]

lemma dropWhile_append_of_all {p : Char → Bool} {w t : List Char}
    (hw : ∀ c ∈ w, p c = true) :
    List.dropWhile p (w ++ t) = List.dropWhile p t := by
  induction w with
  | nil => rfl
  | cons c cs ih =>
    rw [List.cons_append, List.dropWhile_cons, if_pos (hw c (List.mem_cons_self _ _))]
    exact ih fun d hd => hw d (List.mem_cons_of_mem _ hd)

lemma bool_eq_false_of_ne_true {b : Bool} (h : ¬b = true) : b = false := by
  cases b with
  | true => exact absurd rfl h
  | false => rfl

lemma transform_line_idem (l : List Char) :
    transform_line (transform_line l) = transform_line l := by
  by_cases hc : startsWithChar '#' (trimStart l) = true
  · rw [transform_line_of_comment hc, transform_line_of_comment hc]
  · have hc' := bool_eq_false_of_ne_true hc
    by_cases hp : List.isPrefixOf "pick ".toList (trimStart l) = true
    · rw [transform_line_of_pick hc' hp]
      have hw : ∀ c ∈ l.takeWhile isRustWhitespace, isRustWhitespace c = true :=
        fun c hcm => List.mem_takeWhile_imp hcm
      have ht : trimStart (l.takeWhile isRustWhitespace ++
            ("edit ".toList ++ (trimStart l).drop 5)) =
          'e' :: ('d' :: 'i' :: 't' :: ' ' :: (trimStart l).drop 5) := by
        show List.dropWhile isRustWhitespace _ = _
        rw [dropWhile_append_of_all hw]
        rw [show ("edit ".toList ++ (trimStart l).drop 5 : List Char) =
          'e' :: ('d' :: 'i' :: 't' :: ' ' :: (trimStart l).drop 5) from rfl]
        rw [List.dropWhile_cons, if_neg (by decide)]
      rw [show (l.takeWhile isRustWhitespace ++ "edit ".toList ++
          (trimStart l).drop 5 : List Char) =
        l.takeWhile isRustWhitespace ++
          ("edit ".toList ++ (trimStart l).drop 5) from List.append_assoc _ _ _]
      apply transform_line_of_other
      · rw [ht]; rfl
      · rw [ht]; rfl
    · have hp' := bool_eq_false_of_ne_true hp
      rw [transform_line_of_other hc' hp', transform_line_of_other hc' hp']

lemma mem_transform_line {l : List Char} {c : Char}
    (h : c ∈ transform_line l) : c ∈ l ∨ c ∈ ("edit ".toList) := by
  by_cases hc : startsWithChar '#' (trimStart l) = true
  · rw [transform_line_of_comment hc] at h
    exact Or.inl h
  · have hc' := bool_eq_false_of_ne_true hc
    by_cases hp : List.isPrefixOf "pick ".toList (trimStart l) = true
    · rw [transform_line_of_pick hc' hp] at h
      rcases List.mem_append.mp h with h1 | h2
      · rcases List.mem_append.mp h1 with h3 | h4
        · exact Or.inl (List.Sublist.mem h3 (List.takeWhile_sublist _))
        · exact Or.inr h4
      · have h5 : c ∈ trimStart l := List.Sublist.mem h2 (List.drop_sublist _ _)
        rw [show trimStart l = l.dropWhile isRustWhitespace from rfl] at h5
        exact Or.inl (List.Sublist.mem h5 (List.dropWhile_sublist _))
    · have hp' := bool_eq_false_of_ne_true hp
      rw [transform_line_of_other hc' hp'] at h
      exact Or.inl h

/-- C10 counterexample: the whole-file transform is not idempotent on the
content "abc\r" — the first run appends a newline, and the second run's
line iterator then strips the carriage return before that newline. -/
theorem rewrite_content_not_idempotent :
    rewriteContent (rewriteContent "abc\r".toList) ≠
      rewriteContent "abc\r".toList := by decide

/-- C10 (amended): the per-line transform is always idempotent, and the
whole-file transform applied twice equals one application for every file
content that contains no carriage return; with a carriage return present
the line iterator's CRLF stripping can normalize the second run
differently. -/
theorem transform_idempotent (l : List Char) (s : List Char)
    (hs : ('\r') ∉ s) :
    transform_line (transform_line l) = transform_line l ∧
    rewriteContent (rewriteContent s) = rewriteContent s := by
  refine ⟨transform_line_idem l, ?_⟩
  cases hls : linesOf s with
  | nil =>
    have hsnil : s = [] := by
      unfold linesOf at hls
      exact splitInclNl_eq_nil_iff.mp (List.map_eq_nil_iff.mp hls)
    subst hsnil
    rfl
  | cons l₀ ls₀ =>
    have hclean : ∀ m ∈ (l₀ :: ls₀).map transform_line,
        ('\n') ∉ m ∧ ('\r') ∉ m := by
      intro m hm
      obtain ⟨lm, hlm, hmap⟩ := List.mem_map.mp hm
      subst hmap
      have hlm' : lm ∈ linesOf s := by rw [hls]; exact hlm
      unfold linesOf at hlm'
      obtain ⟨seg, hseg, hmapseg⟩ := List.mem_map.mp hlm'
      subst hmapseg
      constructor
      · intro hmem
        rcases mem_transform_line hmem with h1 | h2
        · exact rustLineMap_no_nl (splitInclNl_dropLast_no_nl s seg hseg) h1
        · exact absurd h2 (by decide)
      · intro hmem
        rcases mem_transform_line hmem with h1 | h2
        · exact hs (splitInclNl_mem_chars s seg hseg '\r' (mem_rustLineMap_sub h1))
        · exact absurd h2 (by decide)
    have hfix : ∀ m ∈ (l₀ :: ls₀).map transform_line, transform_line m = m := by
      intro m hm
      obtain ⟨lm, _, hmap⟩ := List.mem_map.mp hm
      rw [← hmap]
      exact transform_line_idem lm
    have h1 : rewriteContent s = joinNl ((l₀ :: ls₀).map transform_line) ++ ['\n'] := by
      unfold rewriteContent
      rw [hls]
    rw [h1]
    unfold rewriteContent
    have hms : (l₀ :: ls₀).map transform_line =
        transform_line l₀ :: ls₀.map transform_line := rfl
    rw [hms, linesOf_joinNl _ _ (by rw [← hms]; exact hclean)]
    rw [map_transform_eq_self (by rw [← hms]; exact hfix)]

/-- Witness for C10 at a concrete carriage-return-free file content. -/
theorem transform_idempotent_witness :
    rewriteContent (rewriteContent "pick a\nexec b\n".toList) =
      rewriteContent "pick a\nexec b\n".toList :=
  (transform_idempotent [] "pick a\nexec b\n".toList (by decide)).2

end GitAuthorRewrite
